import Mathlib

/-!
Shallow embedding of `src/nifty50_intraday_movers.py`: the module-level
symbol deduplication (lines 30–36), the per-symbol bar reduction and record
construction in `fetch_data` (lines 40–83), and the gainers/losers ranking
in `print_top_movers` (lines 85–96), together with theorems about them.

Prices are rationals; the Python builtin `round(x, n)` is modelled as
rounding half-to-even at `n` decimal places. `pandas.sort_values` on the
single `pct_change` column is modelled after the pandas `nargsort`
routine: an ascending argsort whose index array is reversed when
`ascending=False`. The source leaves the relative order of equal keys
unspecified (the default numpy quicksort degenerates to a stable
insertion sort only below its cutoff of about 16 rows, and the script
sorts larger frames); the model commits to the stable order as one
admissible refinement, and no theorem below depends on that choice
except through sortedness, permutation, column independence, and
concrete frames of at most two rows, where the model coincides with the
source.
-/

set_option maxRecDepth 4000

namespace Nifty

/-- One price bar as the script reads it: only `Open` and `Close` are used. -/
structure Bar where
  Open : ℚ
  Close : ℚ
deriving DecidableEq

/-- Round a rational to the nearest integer, ties to even (Python `round`). -/
def roundHalfEven (q : ℚ) : ℤ :=
  let f := ⌊q⌋
  let r := q - f
  if r < 1/2 then f
  else if 1/2 < r then f + 1
  else if f % 2 = 0 then f else f + 1

/-- Python `round(q, n)`: round at `n` decimal places. -/
def roundTo (n : ℕ) (q : ℚ) : ℚ := (roundHalfEven (q * 10 ^ n) : ℚ) / 10 ^ n

/-- Line 73: `(current_price - open_price) / open_price * 100 if open_price != 0 else 0.0`. -/
def pctChange (open_price current_price : ℚ) : ℚ :=
  if open_price ≠ 0 then (current_price - open_price) / open_price * 100 else 0

/-- Python `str.replace(".NS", "")` on the character list: occurrences of
`.NS` are removed scanning left to right. -/
def replaceNSAux : List Char → List Char
  | [] => []
  | [c] => [c]
  | [c, d] => [c, d]
  | c :: d :: e :: rest =>
    if c = '.' ∧ d = 'N' ∧ e = 'S' then replaceNSAux rest
    else c :: replaceNSAux (d :: e :: rest)

/-- Model of `sym.replace(".NS", "")` as used on lines 74–75. -/
def stripNS (s : String) : String := ⟨replaceNSAux s.data⟩

/-- The per-symbol record built on lines 74–80 of `fetch_data`. -/
structure Obs where
  symbol : String
  price : ℚ
  «open» : ℚ
  pct_change : ℚ
  source : String
deriving DecidableEq

/-- Lines 55–72 of `fetch_data`: reduce the intraday bars (else the 2-day
daily bars) for one symbol to `(open_price, current_price, source)`;
`none` when both sequences are empty (the symbol is skipped). -/
def reduceBars : List Bar → List Bar → Option (ℚ × ℚ × String)
  | [], [] => none
  | [], d :: ds =>
    let last := (d :: ds).getLast (List.cons_ne_nil d ds)
    some (last.Open, last.Close, "daily-close-fallback")
  | f :: fs, _ =>
    let last := (f :: fs).getLast (List.cons_ne_nil f fs)
    some (f.Open, last.Close, "intraday")

/-- Model of `fetch_data`: market data is given by two functions returning the
intraday (`period="1d"`) and daily (`period="2d"`) history of a ticker; a
ticker whose histories are both empty is dropped, like the `continue` and
`except` paths. The returned dict is an association list in insertion
order. -/
def fetch_data (symbols : List String) (intradayOf dailyOf : String → List Bar) :
    List (String × Obs) :=
  symbols.filterMap fun sym =>
    match reduceBars (intradayOf sym) (dailyOf sym) with
    | none => none
    | some (open_price, current_price, src) =>
      some (stripNS sym,
        { symbol := stripNS sym
          price := roundTo 2 current_price
          «open» := roundTo 2 open_price
          pct_change := roundTo 4 (pctChange open_price current_price)
          source := src })

/-- The hardcoded `NIFTY50` list of lines 21–28 (with its duplicates). -/
def NIFTY50 : List String :=
  ["RELIANCE", "HDFCBANK", "BHARTIARTL", "TCS", "ICICIBANK", "SBIN", "BAJFINANCE", "INFY",
   "HINDUNILVR", "LT", "ITC", "MARUTI", "M&M", "KOTAKBANK", "HCLTECH", "SUNPHARMA", "AXISBANK",
   "ULTRACEMCO", "BAJAJFINSV", "TITAN", "NTPC", "ONGC", "ADANIPORTS", "BEL", "ADANIENT",
   "TATACONSUM", "APOLLOHOSP", "DRREDDY", "TATASTEEL", "DIVISLAB", "WIPRO", "COALINDIA", "BPCL",
   "HEROMOTOCO", "HDFC", "JSWSTEEL", "GRASIM", "EICHERMOT", "HINDALCO", "UPL", "BRITANNIA",
   "TECHM", "SBILIFE", "ICICIPRULI", "ONGC", "NTPC", "JSWSTEEL"]

/-- The dedup-and-append loop of lines 31–36, with the `seen` set as a
list and the accumulating `symbols` list as the result. -/
def buildSymbols (seen : List String) : List String → List String
  | [] => []
  | s :: rest =>
    if s ∈ seen then buildSymbols seen rest
    else (s ++ ".NS") :: buildSymbols (s :: seen) rest

/-- The module-level `symbols` list (line 32). -/
def symbols : List String := buildSymbols [] NIFTY50

/-- Ascending comparison on the `pct_change` column. -/
def pctLe (a b : Obs) : Prop := a.pct_change ≤ b.pct_change

/-- Descending comparison on the `pct_change` column. -/
def pctGe (a b : Obs) : Prop := b.pct_change ≤ a.pct_change

instance : DecidableRel pctLe := fun a b =>
  inferInstanceAs (Decidable (a.pct_change ≤ b.pct_change))

instance : IsTotal Obs pctLe := ⟨fun a b => le_total a.pct_change b.pct_change⟩

instance : IsTrans Obs pctLe := ⟨fun _ _ _ h h' => le_trans h h'⟩

/-- Model of `sort_values("pct_change", ascending=True)`: an ascending
sort on the pct_change column. Its tie order (stable) is one admissible
refinement of the source, whose tie order is unspecified on frames
beyond the numpy insertion-sort cutoff; theorems below use this
definition only through properties independent of that choice. -/
def sortAsc (l : List Obs) : List Obs := l.insertionSort pctLe

/-- The output of `print_top_movers`: either the early `"No data fetched."`
message or the two printed tables. -/
inductive MoversOutput where
  | noData
  | movers (gainers losers : List Obs)
deriving DecidableEq

/-- Model of `print_top_movers` (lines 85–96): build the frame in dict insertion
order; if it is empty report no data, else print the first `topn` rows of
the descending sort (the reversed ascending sort) and of the ascending
sort. -/
def print_top_movers (results : List (String × Obs)) (topn : ℕ) : MoversOutput :=
  let df := results.map Prod.snd
  if df.isEmpty then .noData
  else .movers ((sortAsc df).reverse.take topn) ((sortAsc df).take topn)

/-- The gainers table of an output; empty for the no-data message. -/
def MoversOutput.gainers : MoversOutput → List Obs
  | .noData => []
  | .movers g _ => g

/-- The losers table of an output; empty for the no-data message. -/
def MoversOutput.losers : MoversOutput → List Obs
  | .noData => []
  | .movers _ l => l

/-- Lexicographic (code-point) order on strings, as Python compares
symbols. -/
def symLt (s t : String) : Prop := List.Lex (· < ·) s.data t.data

instance : DecidableRel symLt := fun s t =>
  inferInstanceAs (Decidable (List.Lex (· < ·) s.data t.data))

/-- C4: when openPrice is 0 the computed percentChange is 0 (no division
is attempted); when openPrice is nonzero it is the plain formula of
line 73. -/
theorem pct_zero_open_guard (open_price current_price : ℚ) :
    (open_price = 0 → pctChange open_price current_price = 0)
    ∧ (open_price ≠ 0 →
        pctChange open_price current_price
          = (current_price - open_price) / open_price * 100) := by
  constructor
  · intro h
    simp [pctChange, h]
  · intro h
    simp [pctChange, h]

/-- Witness for the open-price guard, at openPrice 0 and openPrice 2. -/
theorem pct_zero_open_guard_witness :
    pctChange 0 5 = 0 ∧ pctChange 2 3 = (3 - 2) / 2 * 100 :=
  ⟨(pct_zero_open_guard 0 5).1 rfl, (pct_zero_open_guard 2 3).2 (by decide)⟩

/-- C3: nonempty intraday bars give (first open, last close, tag
intraday); else nonempty daily bars give the open and close of the most
recent session with the fallback tag; else the symbol yields no
observation and `fetch_data` drops it without error. -/
theorem reduce_fallback_policy (intra daily : List Bar) :
    (∀ f fs, intra = f :: fs →
      reduceBars intra daily
        = some (f.Open, ((f :: fs).getLast (List.cons_ne_nil f fs)).Close, "intraday"))
    ∧ (intra = [] → ∀ d ds, daily = d :: ds →
      reduceBars intra daily
        = some (((d :: ds).getLast (List.cons_ne_nil d ds)).Open,
            ((d :: ds).getLast (List.cons_ne_nil d ds)).Close, "daily-close-fallback"))
    ∧ (intra = [] → daily = [] → reduceBars intra daily = none)
    ∧ (∀ sym (I D : String → List Bar), I sym = [] → D sym = [] →
        fetch_data [sym] I D = []) := by
  refine ⟨?_, ?_, ?_, ?_⟩
  · rintro f fs rfl
    rfl
  · rintro rfl d ds rfl
    rfl
  · rintro rfl rfl
    rfl
  · intro sym I D hI hD
    simp [fetch_data, hI, hD, reduceBars]

/-- Witness for the reduction policy at concrete bar lists. -/
theorem reduce_fallback_policy_witness :
    reduceBars [⟨3, 4⟩, ⟨7, 9⟩] [⟨1, 2⟩] = some (3, 9, "intraday")
    ∧ reduceBars [] [⟨1, 2⟩, ⟨5, 6⟩] = some (5, 6, "daily-close-fallback")
    ∧ reduceBars [] [] = none
    ∧ fetch_data ["Q.NS"] (fun _ => []) (fun _ => []) = [] := by
  refine ⟨?_, ?_, ?_, ?_⟩
  · exact (reduce_fallback_policy [⟨3, 4⟩, ⟨7, 9⟩] [⟨1, 2⟩]).1 ⟨3, 4⟩ [⟨7, 9⟩] rfl
  · exact (reduce_fallback_policy [] [⟨1, 2⟩, ⟨5, 6⟩]).2.1 rfl ⟨1, 2⟩ [⟨5, 6⟩] rfl
  · exact (reduce_fallback_policy [] []).2.2.1 rfl rfl
  · exact (reduce_fallback_policy [] []).2.2.2 "Q.NS" _ _ rfl rfl

/-- C7: the empty mapping yields the distinct no-data output, which has
zero gainers and zero losers and differs from every populated report. -/
theorem empty_mapping_no_data (topn : ℕ) :
    print_top_movers [] topn = .noData
    ∧ (MoversOutput.noData).gainers = []
    ∧ (MoversOutput.noData).losers = []
    ∧ ∀ g l, (MoversOutput.noData : MoversOutput) ≠ .movers g l := by
  refine ⟨rfl, rfl, rfl, ?_⟩
  intro g l h
  exact MoversOutput.noConfusion h

/-- Witness: the no-data output at topn 5 differs from a one-entry report. -/
theorem empty_mapping_no_data_witness :
    print_top_movers [] 5 = .noData
    ∧ (MoversOutput.noData : MoversOutput)
        ≠ .movers [⟨"A", 1, 1, 0, "intraday"⟩] [⟨"A", 1, 1, 0, "intraday"⟩] :=
  ⟨(empty_mapping_no_data 5).1, (empty_mapping_no_data 5).2.2.2 _ _⟩

/-- C1: for a nonempty mapping, the gainers table is the first
min(topn, count) rows of a non-increasing ordering of all observations,
the losers table the first min(topn, count) rows of a non-decreasing one;
a topn beyond the count returns every observation, with no error. -/
theorem top_movers_shape (results : List (String × Obs)) (topn : ℕ)
    (h : results ≠ []) :
    ∃ desc asc : List Obs,
      desc.Perm (results.map Prod.snd)
      ∧ asc.Perm (results.map Prod.snd)
      ∧ desc.Sorted pctGe
      ∧ asc.Sorted pctLe
      ∧ print_top_movers results topn = .movers (desc.take topn) (asc.take topn)
      ∧ (print_top_movers results topn).gainers.length = min topn results.length
      ∧ (print_top_movers results topn).losers.length = min topn results.length := by
  have hdf : ((results.map Prod.snd).isEmpty = true) = False := by
    simp [List.isEmpty_iff, h]
  have hs : (sortAsc (results.map Prod.snd)).Sorted pctLe :=
    List.sorted_insertionSort pctLe (results.map Prod.snd)
  refine ⟨(sortAsc (results.map Prod.snd)).reverse, sortAsc (results.map Prod.snd),
    ?_, ?_, ?_, hs, ?_, ?_, ?_⟩
  · exact ((sortAsc (results.map Prod.snd)).reverse_perm).trans
      (List.perm_insertionSort pctLe (results.map Prod.snd))
  · exact List.perm_insertionSort pctLe (results.map Prod.snd)
  · exact List.pairwise_reverse.mpr (hs.imp (fun hab => hab))
  · simp [print_top_movers, hdf]
  · simp [print_top_movers, MoversOutput.gainers, hdf, sortAsc]
  · simp [print_top_movers, MoversOutput.losers, hdf, sortAsc]

/-- Witness for the report shape on a two-entry mapping with topn 5. -/
theorem top_movers_shape_witness :
    ∃ desc asc : List Obs,
      desc.Perm ([(("A" : String), (⟨"A", 110, 100, 10, "intraday"⟩ : Obs)),
          ("B", ⟨"B", 95, 100, -5, "intraday"⟩)].map Prod.snd)
      ∧ asc.Perm ([(("A" : String), (⟨"A", 110, 100, 10, "intraday"⟩ : Obs)),
          ("B", ⟨"B", 95, 100, -5, "intraday"⟩)].map Prod.snd)
      ∧ desc.Sorted pctGe
      ∧ asc.Sorted pctLe
      ∧ print_top_movers [("A", ⟨"A", 110, 100, 10, "intraday"⟩),
          ("B", ⟨"B", 95, 100, -5, "intraday"⟩)] 5
          = .movers (desc.take 5) (asc.take 5)
      ∧ (print_top_movers [("A", ⟨"A", 110, 100, 10, "intraday"⟩),
          ("B", ⟨"B", 95, 100, -5, "intraday"⟩)] 5).gainers.length
          = min 5 [(("A" : String), (⟨"A", 110, 100, 10, "intraday"⟩ : Obs)),
              ("B", ⟨"B", 95, 100, -5, "intraday"⟩)].length
      ∧ (print_top_movers [("A", ⟨"A", 110, 100, 10, "intraday"⟩),
          ("B", ⟨"B", 95, 100, -5, "intraday"⟩)] 5).losers.length
          = min 5 [(("A" : String), (⟨"A", 110, 100, 10, "intraday"⟩ : Obs)),
              ("B", ⟨"B", 95, 100, -5, "intraday"⟩)].length :=
  top_movers_shape
    [("A", ⟨"A", 110, 100, 10, "intraday"⟩), ("B", ⟨"B", 95, 100, -5, "intraday"⟩)] 5
    (List.cons_ne_nil _ _)

/-- Forget the provenance column of an observation. -/
def stripSource (o : Obs) : Obs :=
  { o with source := "" }

/-- Apply an observation transformation to both tables of an output. -/
def MoversOutput.mapObs (f : Obs → Obs) : MoversOutput → MoversOutput
  | .noData => .noData
  | .movers g l => .movers (g.map f) (l.map f)

/-- C8: two observation mappings that agree row by row on everything but
the source field produce reports that agree row by row on everything but
the source field: provenance never affects the ranking. -/
theorem ranking_ignores_source (results results' : List (String × Obs)) (topn : ℕ)
    (h : results.map (fun e => stripSource e.2) = results'.map (fun e => stripSource e.2)) :
    (print_top_movers results topn).mapObs stripSource
      = (print_top_movers results' topn).mapObs stripSource := by
  have hdf : (results.map Prod.snd).map stripSource
      = (results'.map Prod.snd).map stripSource := by
    simpa [List.map_map, Function.comp] using h
  have key : ∀ l : List Obs, (sortAsc l).map stripSource = sortAsc (l.map stripSource) := by
    intro l
    exact List.map_insertionSort pctLe pctLe stripSource l (fun a _ b _ => Iff.rfl)
  have hlen : (results.map Prod.snd).length = (results'.map Prod.snd).length := by
    have := congrArg List.length hdf
    simpa using this
  by_cases hemp : (results.map Prod.snd).isEmpty
  · have hemp' : (results'.map Prod.snd).isEmpty := by
      simp only [List.isEmpty_iff, List.length_eq_zero] at hemp ⊢
      rw [← List.length_eq_zero, ← hlen, List.length_eq_zero, hemp]
    simp [print_top_movers, hemp, hemp', MoversOutput.mapObs]
  · have hemp' : ¬ (results'.map Prod.snd).isEmpty := by
      simp only [List.isEmpty_iff, ← List.length_eq_zero, hlen] at hemp ⊢
      exact hemp
    simp only [print_top_movers, if_neg hemp, if_neg hemp', MoversOutput.mapObs]
    rw [List.map_take, List.map_take, List.map_take, List.map_take,
      List.map_reverse, List.map_reverse, key, key, hdf]

/-- Witness: one intraday and one fallback-sourced copy of the same
observation rank identically. -/
theorem ranking_ignores_source_witness :
    (print_top_movers [("A", ⟨"A", 190, 200, -5, "intraday"⟩)] 5).mapObs stripSource
      = (print_top_movers [("A", ⟨"A", 190, 200, -5, "daily-close-fallback"⟩)] 5).mapObs
          stripSource :=
  ranking_ignores_source
    [("A", ⟨"A", 190, 200, -5, "intraday"⟩)]
    [("A", ⟨"A", 190, 200, -5, "daily-close-fallback"⟩)] 5 (by decide)

/-- C2 counterexample: two observations both at +5 percent, inserted
with symbol A before symbol B; the gainers table lists B before A even
though A comes first in the ascending (lexicographic) symbol order, so
ties are not broken by symbol. -/
theorem tie_break_counterexample :
    print_top_movers
        [("A", ⟨"A", 105, 100, 5, "intraday"⟩), ("B", ⟨"B", 105, 100, 5, "intraday"⟩)] 5
      = .movers [⟨"B", 105, 100, 5, "intraday"⟩, ⟨"A", 105, 100, 5, "intraday"⟩]
          [⟨"A", 105, 100, 5, "intraday"⟩, ⟨"B", 105, 100, 5, "intraday"⟩]
    ∧ symLt "A" "B" := by
  exact ⟨by decide, by decide⟩

/-- Forget the symbol column of an observation. -/
def stripSymbol (o : Obs) : Obs :=
  { o with symbol := "" }

/-- C2 amended: on equal pct_change the ranker does not consult the
symbol at all: both tables are computed from the pct_change column and
the row positions alone, so two mappings that agree row by row on
everything but the symbol field produce reports that agree row by row
on everything but the symbol field. In particular no tie is reordered
into ascending symbol order (the counterexample lists B before A); what
relative order tied rows do get is left to the sort routine. -/
theorem ranking_ignores_symbol (results results' : List (String × Obs)) (topn : ℕ)
    (h : results.map (fun e => stripSymbol e.2) = results'.map (fun e => stripSymbol e.2)) :
    (print_top_movers results topn).mapObs stripSymbol
      = (print_top_movers results' topn).mapObs stripSymbol := by
  have hdf : (results.map Prod.snd).map stripSymbol
      = (results'.map Prod.snd).map stripSymbol := by
    simpa [List.map_map, Function.comp] using h
  have key : ∀ l : List Obs, (sortAsc l).map stripSymbol = sortAsc (l.map stripSymbol) := by
    intro l
    exact List.map_insertionSort pctLe pctLe stripSymbol l (fun a _ b _ => Iff.rfl)
  have hlen : (results.map Prod.snd).length = (results'.map Prod.snd).length := by
    have := congrArg List.length hdf
    simpa using this
  by_cases hemp : (results.map Prod.snd).isEmpty
  · have hemp' : (results'.map Prod.snd).isEmpty := by
      simp only [List.isEmpty_iff, List.length_eq_zero] at hemp ⊢
      rw [← List.length_eq_zero, ← hlen, List.length_eq_zero, hemp]
    simp [print_top_movers, hemp, hemp', MoversOutput.mapObs]
  · have hemp' : ¬ (results'.map Prod.snd).isEmpty := by
      simp only [List.isEmpty_iff, ← List.length_eq_zero, hlen] at hemp ⊢
      exact hemp
    simp only [print_top_movers, if_neg hemp, if_neg hemp', MoversOutput.mapObs]
    rw [List.map_take, List.map_take, List.map_take, List.map_take,
      List.map_reverse, List.map_reverse, key, key, hdf]

/-- Witness: renaming the symbol of a tied row does not move any row. -/
theorem ranking_ignores_symbol_witness :
    (print_top_movers [("A", ⟨"A", 105, 100, 5, "intraday"⟩)] 5).mapObs stripSymbol
      = (print_top_movers [("B", ⟨"B", 105, 100, 5, "intraday"⟩)] 5).mapObs stripSymbol :=
  ranking_ignores_symbol
    [("A", ⟨"A", 105, 100, 5, "intraday"⟩)]
    [("B", ⟨"B", 105, 100, 5, "intraday"⟩)] 5 (by decide)

/-- Half-to-even rounding moves a rational by at most one half. -/
theorem abs_roundHalfEven_sub_le (q : ℚ) : |(roundHalfEven q : ℚ) - q| ≤ 1/2 := by
  have h1 : ((⌊q⌋ : ℤ) : ℚ) ≤ q := Int.floor_le q
  have h2 : q < (⌊q⌋ : ℚ) + 1 := Int.lt_floor_add_one q
  rw [abs_le]
  simp only [roundHalfEven]
  split_ifs with hlt hgt hev <;> constructor <;> push_cast <;> push_cast at hlt <;>
    try push_cast at hgt
  all_goals linarith

/-- Rounding at n decimal places moves a rational by at most half an
ulp. -/
theorem abs_roundTo_sub_le (n : ℕ) (q : ℚ) :
    |roundTo n q - q| ≤ 1 / (2 * 10 ^ n) := by
  have h := abs_roundHalfEven_sub_le (q * 10 ^ n)
  have hpos : (0:ℚ) < 10 ^ n := by positivity
  have hq : roundTo n q - q
      = ((roundHalfEven (q * 10 ^ n) : ℚ) - q * 10 ^ n) / 10 ^ n := by
    rw [roundTo]
    field_simp
    ring
  rw [hq, abs_div, abs_of_pos hpos, div_le_div_iff₀ hpos (by positivity)]
  calc |(roundHalfEven (q * 10 ^ n) : ℚ) - q * 10 ^ n| * (2 * 10 ^ n)
      ≤ (1/2) * (2 * 10 ^ n) := mul_le_mul_of_nonneg_right h (by positivity)
    _ = 1 * 10 ^ n := by ring

/-- C5 counterexample: with open 3 and close 4 the emitted pct_change is
the 4-decimal rounding 33.3333 of the full-precision 33.33..., not the
2-decimal rounding 33.33. -/
theorem pct_two_decimals_counterexample :
    fetch_data ["X.NS"] (fun _ => [⟨3, 4⟩]) (fun _ => [])
      = [("X", ⟨"X", 4, 3, 333333/10000, "intraday"⟩)]
    ∧ roundTo 2 (pctChange 3 4) = 3333/100
    ∧ (333333/10000 : ℚ) ≠ 3333/100 := by
  refine ⟨?_, by with_unfolding_all rfl, by with_unfolding_all decide⟩
  have h1 : roundTo 2 (4:ℚ) = 4 := by with_unfolding_all rfl
  have h2 : roundTo 2 (3:ℚ) = 3 := by with_unfolding_all rfl
  have h3 : roundTo 4 (pctChange 3 4) = 333333/10000 := by with_unfolding_all rfl
  calc fetch_data ["X.NS"] (fun _ => [⟨3, 4⟩]) (fun _ => [])
      = [("X", ⟨"X", roundTo 2 4, roundTo 2 3, roundTo 4 (pctChange 3 4), "intraday"⟩)] :=
        rfl
    _ = [("X", ⟨"X", 4, 3, 333333/10000, "intraday"⟩)] := by rw [h1, h2, h3]

/-- Every entry of the fetched mapping comes from some ticker whose bars
reduced to an (open, current, source) triple, with pct_change the
4-decimal rounding of the full-precision percent change and the price
fields rounded to 2 decimals. -/
theorem fetch_entry_spec (syms : List String) (I D : String → List Bar)
    (k : String) (o : Obs) (hmem : (k, o) ∈ fetch_data syms I D) :
    ∃ sym ∈ syms, ∃ op cur src,
      reduceBars (I sym) (D sym) = some (op, cur, src)
      ∧ o.pct_change = roundTo 4 (pctChange op cur)
      ∧ o.price = roundTo 2 cur
      ∧ o.«open» = roundTo 2 op := by
  rw [fetch_data, List.mem_filterMap] at hmem
  obtain ⟨sym, hsym, heq⟩ := hmem
  refine ⟨sym, hsym, ?_⟩
  rcases hred : reduceBars (I sym) (D sym) with _ | ⟨op, cur, src⟩
  · rw [hred] at heq
    cases heq
  · rw [hred] at heq
    simp only [Option.some.injEq, Prod.mk.injEq] at heq
    refine ⟨op, cur, src, rfl, ?_, ?_, ?_⟩ <;> rw [← heq.2]

/-- C5 amended: every emitted observation carries pct_change equal to
the 4-decimal (not 2-decimal) rounding of the full-precision percent
change of its reduced bar values, and prices rounded to 2 decimals; the
percent computation itself is carried out in full precision before the
single rounding step. -/
theorem pct_rounding_precision (syms : List String) (I D : String → List Bar)
    (k : String) (o : Obs) (hmem : (k, o) ∈ fetch_data syms I D) :
    ∃ sym ∈ syms, ∃ op cur src,
      reduceBars (I sym) (D sym) = some (op, cur, src)
      ∧ o.pct_change = roundTo 4 (pctChange op cur)
      ∧ o.price = roundTo 2 cur
      ∧ o.«open» = roundTo 2 op :=
  fetch_entry_spec syms I D k o hmem

/-- Witness for the emitted rounding precision on one intraday bar. -/
theorem pct_rounding_precision_witness :
    ∃ sym ∈ ["X.NS"], ∃ op cur src,
      reduceBars ((fun _ : String => [(⟨3, 4⟩ : Bar)]) sym)
          ((fun _ : String => ([] : List Bar)) sym) = some (op, cur, src)
      ∧ (⟨"X", roundTo 2 4, roundTo 2 3, roundTo 4 (pctChange 3 4), "intraday"⟩ : Obs).pct_change
          = roundTo 4 (pctChange op cur)
      ∧ (⟨"X", roundTo 2 4, roundTo 2 3, roundTo 4 (pctChange 3 4), "intraday"⟩ : Obs).price
          = roundTo 2 cur
      ∧ (⟨"X", roundTo 2 4, roundTo 2 3, roundTo 4 (pctChange 3 4), "intraday"⟩ : Obs).«open»
          = roundTo 2 op :=
  pct_rounding_precision ["X.NS"] (fun _ => [⟨3, 4⟩]) (fun _ => []) "X"
    ⟨"X", roundTo 2 4, roundTo 2 3, roundTo 4 (pctChange 3 4), "intraday"⟩
    (List.mem_singleton.mpr rfl)

/-- C6 counterexample: bars with open 0.001 and close 0.002 store
pct_change 100, but openPrice and currentPrice both round to 0 in the
emitted record, so recomputing from the stored fields yields 0 — off by
100 percentage points, far beyond any rounding tolerance. -/
theorem recompute_from_stored_counterexample :
    fetch_data ["Z.NS"] (fun _ => [⟨1/1000, 1/500⟩]) (fun _ => [])
      = [("Z", ⟨"Z", 0, 0, 100, "intraday"⟩)]
    ∧ pctChange 0 0 = 0
    ∧ (1 : ℚ) < 100 - pctChange 0 0 := by
  refine ⟨?_, by with_unfolding_all rfl, by with_unfolding_all decide⟩
  have h1 : roundTo 2 ((1:ℚ)/500) = 0 := by with_unfolding_all rfl
  have h2 : roundTo 2 ((1:ℚ)/1000) = 0 := by with_unfolding_all rfl
  have h3 : roundTo 4 (pctChange (1/1000) (1/500)) = 100 := by with_unfolding_all rfl
  calc fetch_data ["Z.NS"] (fun _ => [⟨1/1000, 1/500⟩]) (fun _ => [])
      = [("Z", ⟨"Z", roundTo 2 (1/500), roundTo 2 (1/1000),
          roundTo 4 (pctChange (1/1000) (1/500)), "intraday"⟩)] := rfl
    _ = [("Z", ⟨"Z", 0, 0, 100, "intraday"⟩)] := by rw [h1, h2, h3]

/-- C6 amended: the stored pct_change of every emitted observation is
recoverable from the pre-rounding openPrice/currentPrice pair of its
reduced bars to within half a unit of the 4th decimal place (recomputing
from the 2-decimal rounded stored price fields does not enjoy such a
bound). -/
theorem recompute_within_tolerance (syms : List String) (I D : String → List Bar)
    (k : String) (o : Obs) (hmem : (k, o) ∈ fetch_data syms I D) :
    ∃ sym ∈ syms, ∃ op cur src,
      reduceBars (I sym) (D sym) = some (op, cur, src)
      ∧ |pctChange op cur - o.pct_change| ≤ 1/20000 := by
  obtain ⟨sym, hsym, op, cur, src, hred, hpct, _, _⟩ :=
    fetch_entry_spec syms I D k o hmem
  refine ⟨sym, hsym, op, cur, src, hred, ?_⟩
  rw [hpct, abs_sub_comm]
  have h := abs_roundTo_sub_le 4 (pctChange op cur)
  have : (1 : ℚ) / (2 * 10 ^ (4:ℕ)) = 1/20000 := by norm_num
  rw [this] at h
  exact h

/-- Witness for the recomputation tolerance on one intraday bar. -/
theorem recompute_within_tolerance_witness :
    ∃ sym ∈ ["Y.NS"], ∃ op cur src,
      reduceBars ((fun _ : String => [(⟨8, 9⟩ : Bar)]) sym)
          ((fun _ : String => ([] : List Bar)) sym) = some (op, cur, src)
      ∧ |pctChange op cur
          - (⟨"Y", roundTo 2 9, roundTo 2 8, roundTo 4 (pctChange 8 9), "intraday"⟩ : Obs).pct_change|
          ≤ 1/20000 :=
  recompute_within_tolerance ["Y.NS"] (fun _ => [⟨8, 9⟩]) (fun _ => []) "Y"
    ⟨"Y", roundTo 2 9, roundTo 2 8, roundTo 4 (pctChange 8 9), "intraday"⟩
    (List.mem_singleton.mpr rfl)

/-- Whether the three-character pattern ".NS" occurs in a character
list. -/
def hasNS : List Char → Bool
  | [] => false
  | [_] => false
  | [_, _] => false
  | c :: d :: e :: rest => (c == '.' && d == 'N' && e == 'S') || hasNS (d :: e :: rest)

/-- Appending the three characters of ".NS" to an NS-free character list
and replacing removes exactly that suffix. -/
theorem replaceNSAux_append_NS (l : List Char) :
    hasNS l = false → replaceNSAux (l ++ ['.', 'N', 'S']) = l := by
  induction l with
  | nil =>
    intro _
    rfl
  | cons c cs ih =>
    intro h
    rcases cs with _ | ⟨b₁, _ | ⟨b₂, rest⟩⟩
    · simp [replaceNSAux]
    · simp [replaceNSAux]
    · rw [hasNS, Bool.or_eq_false_iff] at h
      obtain ⟨hhead, htail⟩ := h
      have hcond : ¬ (c = '.' ∧ b₁ = 'N' ∧ b₂ = 'S') := by
        rintro ⟨rfl, rfl, rfl⟩
        simp at hhead
      show replaceNSAux (c :: b₁ :: b₂ :: (rest ++ ['.', 'N', 'S'])) = c :: b₁ :: b₂ :: rest
      rw [replaceNSAux, if_neg hcond]
      have : b₁ :: b₂ :: (rest ++ ['.', 'N', 'S']) = (b₁ :: b₂ :: rest) ++ ['.', 'N', 'S'] := rfl
      rw [this, ih htail]

/-- Stripping after appending the ".NS" suffix to an NS-free symbol is
the identity. -/
theorem stripNS_append_NS (s : String) (h : hasNS s.data = false) :
    stripNS (s ++ ".NS") = s := by
  cases s with
  | mk data =>
    show String.mk (replaceNSAux (String.mk data ++ ".NS").data) = String.mk data
    have hd : (String.mk data ++ ".NS").data = data ++ ['.', 'N', 'S'] := rfl
    rw [hd, replaceNSAux_append_NS data h]

/-- Specification-side list (from the spec words): each distinct symbol
exactly once, in order of first occurrence. -/
def specFirstOcc : List String → List String
  | [] => []
  | s :: rest => s :: specFirstOcc (rest.filter (fun t => decide (t ≠ s)))
termination_by l => l.length
decreasing_by
  simp only [List.length_cons]
  exact Nat.lt_succ_of_le (List.length_filter_le _ _)

/-- Every first occurrence comes from the input list. -/
theorem mem_of_mem_specFirstOcc (l : List String) :
    ∀ x, x ∈ specFirstOcc l → x ∈ l := by
  induction l using specFirstOcc.induct with
  | case1 =>
    intro x hx
    simp [specFirstOcc] at hx
  | case2 s rest ih =>
    intro x hx
    rw [specFirstOcc] at hx
    rcases List.mem_cons.mp hx with rfl | hx₂
    · exact List.mem_cons_self _ _
    · exact List.mem_cons_of_mem _ (List.mem_of_mem_filter (ih x hx₂))

/-- The first-occurrence list has no duplicates. -/
theorem nodup_specFirstOcc (l : List String) : (specFirstOcc l).Nodup := by
  induction l using specFirstOcc.induct with
  | case1 => simp [specFirstOcc]
  | case2 s rest ih =>
    rw [specFirstOcc]
    refine List.nodup_cons.mpr ⟨?_, ih⟩
    intro hmem
    have h₁ := mem_of_mem_specFirstOcc _ _ hmem
    have h₂ := List.of_mem_filter h₁
    simp at h₂

/-- The dedup loop of lines 31–36 computes exactly the NS-suffixed first
occurrences of the input symbols not yet seen. -/
theorem buildSymbols_eq (seen : List String) (l : List String) :
    buildSymbols seen l
      = (specFirstOcc (l.filter (fun s => decide (¬ s ∈ seen)))).map
          (fun s => s ++ ".NS") := by
  induction l generalizing seen with
  | nil => simp [buildSymbols, specFirstOcc]
  | cons s rest ih =>
    by_cases hs : s ∈ seen
    · rw [buildSymbols, if_pos hs, ih seen]
      have hcons : (s :: rest).filter (fun t => decide (¬ t ∈ seen))
          = rest.filter (fun t => decide (¬ t ∈ seen)) := by
        simp [List.filter_cons, hs]
      rw [hcons]
    · rw [buildSymbols, if_neg hs, ih (s :: seen)]
      have hcons : (s :: rest).filter (fun t => decide (¬ t ∈ seen))
          = s :: rest.filter (fun t => decide (¬ t ∈ seen)) := by
        simp [List.filter_cons, hs]
      have hfil : ((rest.filter (fun t => decide (¬ t ∈ seen))).filter
            (fun t => decide (t ≠ s)))
          = rest.filter (fun t => decide (¬ t ∈ s :: seen)) := by
        rw [List.filter_filter]
        apply List.filter_congr
        intro x _
        by_cases h1 : x = s <;> by_cases h2 : x ∈ seen <;> simp [h1, h2]
      rw [hcons, specFirstOcc, hfil, List.map_cons]

/-- With nothing seen yet, the dedup loop is exactly the NS-suffixed
first-occurrence list. -/
theorem buildSymbols_nil_eq (l : List String) :
    buildSymbols [] l = (specFirstOcc l).map (fun s => s ++ ".NS") := by
  rw [buildSymbols_eq]
  have hfil : l.filter (fun s => decide (¬ s ∈ ([] : List String))) = l := by
    simp
  rw [hfil]

/-- The keys of the fetched mapping are, in order, a subsequence of the
stripped tickers. -/
theorem fetch_keys_sublist (syms : List String) (I D : String → List Bar) :
    ((fetch_data syms I D).map Prod.fst).Sublist (syms.map stripNS) := by
  induction syms with
  | nil => simp [fetch_data]
  | cons s rest ih =>
    rw [fetch_data, List.filterMap_cons]
    rw [fetch_data] at ih
    rcases hred : reduceBars (I s) (D s) with _ | ⟨op, cur, src⟩ <;>
      simp only [hred, List.map_cons]
    · exact ih.trans (List.sublist_cons_self _ _)
    · exact ih.cons₂ (stripNS s)

/-- C9: the symbol list actually used for fetching is the NS-suffixed
sequence of first occurrences of the distinct input symbols — each
distinct symbol exactly once, in first-occurrence order, with no
duplicates — and (for NS-free input names) the keys of the resulting
observation mapping are unique. -/
theorem symbols_deduplicated (l : List String) :
    buildSymbols [] l = (specFirstOcc l).map (fun s => s ++ ".NS")
    ∧ (specFirstOcc l).Nodup
    ∧ ((∀ s ∈ l, hasNS s.data = false) → ∀ I D : String → List Bar,
        ((fetch_data (buildSymbols [] l) I D).map Prod.fst).Nodup) := by
  have hbs := buildSymbols_nil_eq l
  refine ⟨hbs, nodup_specFirstOcc l, ?_⟩
  intro hfree I D
  have hstrip : (buildSymbols [] l).map stripNS = specFirstOcc l := by
    rw [hbs, List.map_map]
    have : ∀ s ∈ specFirstOcc l, (stripNS ∘ fun s => s ++ ".NS") s = id s := by
      intro s hsmem
      exact stripNS_append_NS s (hfree s (mem_of_mem_specFirstOcc l s hsmem))
    rw [List.map_congr_left this, List.map_id]
  have hnd : ((buildSymbols [] l).map stripNS).Nodup := by
    rw [hstrip]
    exact nodup_specFirstOcc l
  exact (fetch_keys_sublist (buildSymbols [] l) I D).nodup hnd

/-- Witness: a duplicated input list is deduplicated in first-occurrence
order and fetched under unique keys. -/
theorem symbols_deduplicated_witness :
    buildSymbols [] ["B", "A", "B"]
      = (specFirstOcc ["B", "A", "B"]).map (fun s => s ++ ".NS")
    ∧ (specFirstOcc ["B", "A", "B"]).Nodup
    ∧ ((fetch_data (buildSymbols [] ["B", "A", "B"])
        (fun _ => [⟨1, 2⟩]) (fun _ => [])).map Prod.fst).Nodup :=
  ⟨(symbols_deduplicated ["B", "A", "B"]).1,
   (symbols_deduplicated ["B", "A", "B"]).2.1,
   (symbols_deduplicated ["B", "A", "B"]).2.2 (by decide) (fun _ => [⟨1, 2⟩]) (fun _ => [])⟩

/-- C10: every entry of the mapping fetched over the deduplicated symbol
list is keyed by its ticker with the ".NS" suffix removed — the ticker
is the key plus ".NS" — and the symbol field of the entry equals the
key. -/
theorem keys_are_stripped_tickers (l : List String) (I D : String → List Bar)
    (hfree : ∀ s ∈ l, hasNS s.data = false) :
    ∀ k o, (k, o) ∈ fetch_data (buildSymbols [] l) I D →
      o.symbol = k ∧ (k ++ ".NS") ∈ buildSymbols [] l ∧ stripNS (k ++ ".NS") = k := by
  intro k o hmem
  rw [fetch_data, List.mem_filterMap] at hmem
  obtain ⟨sym, hsym, heq⟩ := hmem
  have hbs := buildSymbols_nil_eq l
  rw [hbs] at hsym
  obtain ⟨s, hsmem, rfl⟩ := List.mem_map.mp hsym
  have hsl : s ∈ l := mem_of_mem_specFirstOcc l s hsmem
  have hstrip : stripNS (s ++ ".NS") = s := stripNS_append_NS s (hfree s hsl)
  rcases hred : reduceBars (I (s ++ ".NS")) (D (s ++ ".NS")) with _ | ⟨op, cur, src⟩
  · rw [hred] at heq
    cases heq
  · rw [hred] at heq
    simp only [Option.some.injEq, Prod.mk.injEq] at heq
    obtain ⟨hk, ho⟩ := heq
    have hks : k = s := by rw [← hk, hstrip]
    subst hks
    refine ⟨?_, ?_, ?_⟩
    · rw [← ho]
      exact hstrip
    · rw [hbs]
      exact List.mem_map.mpr ⟨k, hsmem, rfl⟩
    · exact hstrip

/-- Witness: the single ticker TCS.NS is fetched under key TCS with a
matching symbol field. -/
theorem keys_are_stripped_tickers_witness :
    (⟨stripNS "TCS.NS", roundTo 2 2, roundTo 2 1, roundTo 4 (pctChange 1 2),
        "intraday"⟩ : Obs).symbol = "TCS"
    ∧ ("TCS" ++ ".NS") ∈ buildSymbols [] ["TCS"]
    ∧ stripNS ("TCS" ++ ".NS") = "TCS" :=
  keys_are_stripped_tickers ["TCS"] (fun _ => [⟨1, 2⟩]) (fun _ => []) (by decide)
    "TCS"
    ⟨stripNS "TCS.NS", roundTo 2 2, roundTo 2 1, roundTo 4 (pctChange 1 2), "intraday"⟩
    (List.mem_singleton.mpr rfl)

end Nifty
